import Mathlib

/-!
Verification of the folding-rule matching engine of `plover_custom_folding`
(`src/plover_custom_folding/lib/Rule.py`).  The repository carries a second,
stale copy of the same classes inside `lib/builder.py` (a pre-memoization
revision of `Rule`); `lib/Rule.py` is the current engine that the spec
describes (it alone has the memoization table, the `shorter_outline_found`
parameter and `preferring_folds`), so the definitions below embed
`lib/Rule.py`, plus the `folds`/`toggles` Case builders of `lib/builder.py`.

A Plover `Stroke` is an immutable bitmask of keys; we embed it as `Nat`
with bitwise operations:
  `a + b` (union)        -> `a ||| b`
  `a - b` (difference)   -> `a &&& ~b`, written `a ^^^ (a &&& b)`
  `b in a` (containment) -> `b &&& a = b`
  `len(a) == 0`          -> `a = 0`.
-/

namespace PloverCustomFolding

/-- A stroke is a bitmask of steno keys (`plover.steno.Stroke`). -/
abbrev Stroke := Nat

/-- An outline is an ordered sequence of strokes (`Outline = tuple[Stroke, ...]`). -/
abbrev Outline := List Stroke

/-- A stroke filter selects the strokes of the outline to test
(`StrokeFilter = Callable[[Outline], Outline]`). -/
abbrev StrokeFilter := Outline → Outline

/-- The translator is consulted only through `translator.lookup`, so it is
embedded as the lookup function itself. -/
abbrev Translator := Outline → Option String

/-- Plover stroke difference `a - b` (remove the keys of `b` from `a`):
`a & ~b`, expressed without a fixed-width complement as `a ^^^ (a &&& b)`. -/
def strokeDiff (a b : Stroke) : Stroke := a ^^^ (a &&& b)

/-- Plover stroke containment `b in a`: every key of `b` is a key of `a`. -/
def strokeContains (a b : Stroke) : Prop := b &&& a = b

instance (a b : Stroke) : Decidable (strokeContains a b) := by
  unfold strokeContains; infer_instance

/-- Source `_toggle_substroke` (Rule.py lines 16-20): remove `substroke` if it
is contained in `stroke`, add it otherwise. -/
def toggleSubstroke (stroke substroke : Stroke) : Stroke :=
  if strokeContains stroke substroke then strokeDiff stroke substroke
  else stroke ||| substroke

/-- Source `_strokes_overlap` (Rule.py lines 22-23): `~(~a | ~b) != 0`, which
by the De Morgan law cited in the source comment is `a & b != 0`. -/
def strokesOverlap (a b : Stroke) : Prop := a &&& b ≠ 0

instance (a b : Stroke) : Decidable (strokesOverlap a b) := by
  unfold strokesOverlap; infer_instance

/-- Source `empty_stroke` (Rule.py lines 25-26). -/
def emptyStroke : Stroke := 0

/-- Source `_create_stroke_index_mapping` (Rule.py lines 28-32): the Python
dict comprehension `{stroke: i for i, stroke in enumerate(strokes)}` inserts
in index order, so a later duplicate stroke value overwrites an earlier one. -/
def strokeIndexMapping (strokes : Outline) : Stroke → Option Nat :=
  (strokes.enum).foldl
    (fun m p => fun s => if s = p.2 then some p.1 else m s)
    (fun _ => none)

/-- Proof helper: the index (offset by `n`) of the LAST occurrence of `s` in
the list, if any; `strokeIndexMapping` is proved equal to it below, making
the last-occurrence-wins behavior of the dict comprehension explicit. -/
def lastIdxFrom : List Stroke → Stroke → Nat → Option Nat
  | [], _, _ => none
  | x :: xs, s, n =>
    match lastIdxFrom xs s (n + 1) with
    | some j => some j
    | none => if s = x then some n else none

/-- Source `_all_combinations` (Rule.py lines 35-42), recursion indexed by the
number `j` of leading option lists still to process: the Python call with
`last_index = -k` corresponds to `j = options.length - k + 1`, and the guard
`len(options) + last_index < 0` to `j = 0`. -/
def allCombinationsAux (options : List (List α)) : Nat → List (List α)
  | 0 => [[]]
  | j + 1 =>
    (options.getD j []).flatMap (fun option =>
      (allCombinationsAux options j).map (fun combination => combination ++ [option]))

/-- Source `_all_combinations` entered with the default `last_index = -1`. -/
def allCombinations (options : List (List α)) : List (List α) :=
  allCombinationsAux options options.length

/-- Source `Case` (Rule.py lines 47-67).  `__init__` stores the two substrokes
unchecked: the overlap assertion appears in the source only as a commented-out
line (Rule.py line 132), so construction never fails. -/
structure Case where
  containedSubstroke : Stroke
  toggledSubstroke : Stroke
deriving DecidableEq

/-- Source `Case.satisfied_by`: every filtered stroke contains the contained
substroke. -/
def Case.satisfiedBy (c : Case) (filteredStrokes : Outline) : Prop :=
  ∀ stroke ∈ filteredStrokes, strokeContains stroke c.containedSubstroke

instance (c : Case) (filteredStrokes : Outline) :
    Decidable (c.satisfiedBy filteredStrokes) := by
  unfold Case.satisfiedBy; infer_instance

/-- Source `Case.remove_fold`: `_toggle_substroke(stroke - contained, toggled)`. -/
def Case.removeFold (c : Case) (stroke : Stroke) : Stroke :=
  toggleSubstroke (strokeDiff stroke c.containedSubstroke) c.toggledSubstroke

/-- Source `Case.fold_substroke`: `contained + toggled`. -/
def Case.foldSubstroke (c : Case) : Stroke :=
  c.containedSubstroke ||| c.toggledSubstroke

/-- Source `Condition` (Rule.py lines 69-83): an ordered list of alternative
cases. -/
structure Condition where
  cases : List Case

/-- Source `Condition.satisifed_cases` (sic): yields, in declaration order,
every case satisfied by the filtered strokes. -/
def Condition.satisfiedCases (cond : Condition) (filteredStrokes : Outline) : List Case :=
  cond.cases.filter (fun c => decide (c.satisfiedBy filteredStrokes))

/-- Source `_CaseGroup` (Rule.py lines 85-118): a flat tuple of
`(case, stroke_filter)` pairs. -/
abbrev CaseGroup := List (Case × StrokeFilter)

/-- Source `_CaseGroup.merge`: concatenation of the two pair tuples. -/
def CaseGroup.merge (a b : CaseGroup) : CaseGroup := a ++ b

/-- Source `_CaseGroup.remove_folds` (Rule.py lines 92-99).  Python builds
`stroke_index_mapping` from `strokes` when it is not passed in; the caller
(`Prerequisite.satisfied_folds`) passes a mapping built from the same
`strokes`, so building it here is the same function.  When a filtered stroke
is not a value of the outline, Python would raise `KeyError`; the engine only
ever filters strokes out of the outline itself, and we leave the list
unchanged on that unreachable branch. -/
def CaseGroup.removeFolds (g : CaseGroup) (strokes : Outline) : Outline :=
  g.foldl
    (fun newStrokes cf =>
      (cf.2 strokes).foldl
        (fun ns stroke =>
          match strokeIndexMapping strokes stroke with
          | some i => ns.set i (cf.1.removeFold (ns.getD i 0))
          | none => ns)
        newStrokes)
    strokes

/-- Source `_CaseGroup.get_folds` (Rule.py lines 101-112), with the optional
`folds` argument at its default `None` (the only way the engine calls it):
start from one empty stroke per outline position and union each case's
`fold_substroke` into the position the mapping assigns to each filtered
stroke. -/
def CaseGroup.getFolds (g : CaseGroup) (strokes : Outline) : Outline :=
  g.foldl
    (fun newFolds cf =>
      (cf.2 strokes).foldl
        (fun nf stroke =>
          match strokeIndexMapping strokes stroke with
          | some i => nf.set i ((nf.getD i 0) ||| cf.1.foldSubstroke)
          | none => nf)
        newFolds)
    (List.replicate strokes.length emptyStroke)

/-- Source `Clause` (Rule.py lines 120-142). -/
structure Clause where
  strokeFilter : StrokeFilter
  conditions : List Condition

/-- Source `_case_groups` (Rule.py lines 44-45): one `_CaseGroup` per
combination, pairing every chosen case with the clause's stroke filter. -/
def caseGroupsOf (options : List (List Case)) (strokeFilter : StrokeFilter) :
    List CaseGroup :=
  (allCombinations options).map (fun cases => cases.map (fun c => (c, strokeFilter)))

/-- Source `Clause.satisfied_case_groups` (Rule.py lines 134-139). -/
def Clause.satisfiedCaseGroups (cl : Clause) (strokes : Outline) : List CaseGroup :=
  let caseCombinations :=
    cl.conditions.map (fun condition => condition.satisfiedCases (cl.strokeFilter strokes))
  caseGroupsOf caseCombinations cl.strokeFilter

/-- Source `Statement` (Rule.py lines 145-172); `substatements` may hold
nested statements or clauses, so clauses are one constructor of the tree. -/
inductive Stmt where
  | clause (cl : Clause)
  | comp (conjunctive : Bool) (substatements : List Stmt)

/-- First child list that yielded at least one case group: the disjunctive
loop of `Statement.satisfied_case_groups` (Rule.py lines 164-172) yields all
groups of a child, and returns as soon as one child has yielded anything. -/
def firstSatisfied : List (List CaseGroup) → List CaseGroup
  | [] => []
  | [] :: rest => firstSatisfied rest
  | (g :: gs) :: _ => g :: gs

/-- Conjunctive branch of `Statement.satisfied_case_groups` (Rule.py lines
153-162), verbatim: `running_case_group` is initialized ONCE before the loop
over `_all_combinations`, is merged with every case group of every
combination, and is yielded exactly once at the end. -/
def conjunctiveResult (caseGroupSequences : List (List CaseGroup)) : List CaseGroup :=
  [(allCombinations caseGroupSequences).foldl
      (fun running caseGroupSequence =>
        caseGroupSequence.foldl (fun r caseGroup => r.merge caseGroup) running)
      ([] : CaseGroup)]

mutual

/-- Source `Statement.satisfied_case_groups` (Rule.py lines 150-172). -/
def Stmt.satisfiedCaseGroups : Stmt → Outline → List CaseGroup
  | .clause cl, strokes => cl.satisfiedCaseGroups strokes
  | .comp true subs, strokes => conjunctiveResult (stmtGroupsList subs strokes)
  | .comp false subs, strokes => firstSatisfied (stmtGroupsList subs strokes)

/-- The per-substatement group lists, in declaration order. -/
def stmtGroupsList : List Stmt → Outline → List (List CaseGroup)
  | [], _ => []
  | s :: rest, strokes => s.satisfiedCaseGroups strokes :: stmtGroupsList rest strokes

end

/-- Source `Prerequisite` (Rule.py lines 174-189): a tuple of statements or
clauses (clauses are `Stmt.clause` leaves here). -/
abbrev Prerequisite := List Stmt

/-- Source `Prerequisite.satisfied_folds` (Rule.py lines 180-189): for every
element in declaration order and every case group it yields, the pair of the
defolded outline and the per-position folds. -/
def Prerequisite.satisfiedFolds (elements : Prerequisite) (strokes : Outline) :
    List (Outline × Outline) :=
  elements.flatMap (fun element =>
    (element.satisfiedCaseGroups strokes).map (fun caseGroup =>
      (caseGroup.removeFolds strokes, caseGroup.getFolds strokes)))

/-- Source `LookupStrategy` (Rule.py lines 192-205): a handler receiving the
defolded outline, the folds, the original outline and the translator. -/
abbrev LookupStrategy := Outline → Outline → Outline → Translator → Option String

/-- Source `Rule` (Rule.py lines 208-306).  Python's memo set stores rules by
object identity; `rid` makes that identity explicit in the embedding. -/
inductive Rule where
  | mk (prerequisite : Prerequisite) (lookupStrategies : List LookupStrategy)
       (additionalRules : List Rule) (alternativeRules : List Rule)
       (allowShorterOutline : Bool) (rid : Nat)

/-- The `allow_shorter_outline` flag stored by `Rule.__init__`. -/
def Rule.allowShorterOutline : Rule → Bool
  | .mk _ _ _ _ allow _ => allow

/-- The object identity of the rule, used by the memo set. -/
def Rule.rid : Rule → Nat
  | .mk _ _ _ _ _ rid => rid

/-- Source `Rule.preferring_folds` (Rule.py lines 305-306): a rule equal to
this one except that `allow_shorter_outline` is `True`.  (Python allocates a
fresh object; no theorem below depends on the identity of the result.) -/
def Rule.preferringFolds : Rule → Rule
  | .mk prereq strats adds alts _ rid => .mk prereq strats adds alts true rid

/-- Source `Rule.or_also` (Rule.py lines 299-300): append fallback
alternative rules. -/
def Rule.orAlso : Rule → List Rule → Rule
  | .mk prereq strats adds alts allow rid, more =>
    .mk prereq strats adds (alts ++ more) allow rid

/-- Source `Rule.unless_also` (Rule.py lines 302-303): append additional
(exception) rules. -/
def Rule.unlessAlso : Rule → List Rule → Rule
  | .mk prereq strats adds alts allow rid, more =>
    .mk prereq strats (adds ++ more) alts allow rid

/-- The class-level memo `Rule.__unmatched_rules: dict[Outline, set[Rule]]`,
embedded as an association list from outlines to lists of rule identities
(one binding per key, as in a Python dict). -/
abbrev Memo := List (Outline × List Nat)

/-- Dict read: the binding of `k`, if present. -/
def memoGet (m : Memo) (k : Outline) : Option (List Nat) :=
  (m.find? (fun p => p.1 == k)).map (fun p => p.2)

/-- Dict deletion `del m[k]`. -/
def memoErase (m : Memo) (k : Outline) : Memo :=
  m.filter (fun p => ¬ p.1 == k)

/-- Dict write `m[k] = v` (overwrites any previous binding). -/
def memoInsert (m : Memo) (k : Outline) (v : List Nat) : Memo :=
  (k, v) :: memoErase m k

/-- The memo-hit test of Rule.py lines 234: `strokes in __unmatched_rules and
self in __unmatched_rules[strokes]`. -/
def memoHit (m : Memo) (k : Outline) (rid : Nat) : Bool :=
  match memoGet m k with
  | some s => s.contains rid
  | none => false

/-- Rule.py lines 292-295: `__unmatched_rules[strokes].add(self)`, creating
the set if the key is absent (Python `set.add` is a no-op on a present
element). -/
def memoAdd (m : Memo) (k : Outline) (rid : Nat) : Memo :=
  match memoGet m k with
  | some s => memoInsert m k (if s.contains rid then s else s ++ [rid])
  | none => memoInsert m k [rid]

/-- The transient per-lookup state of Rule.py: the class attributes
`Rule.__current_folds` (the fold-overlap claim table) and
`Rule.__unmatched_rules` (the memo set). -/
structure FoldState where
  currentFolds : Option (List Stroke)
  unmatched : Memo


/-- Source `Rule.clear_unmatched_rules` (Rule.py lines 229-231), fired by the
host once per committed chord entry. -/
def clearUnmatchedRules (st : FoldState) : FoldState :=
  { st with unmatched := [] }

/-- The fold-merge loop of Rule.py lines 249-261: walk `current_folds`
position by position; stop with `none` on the first position whose claimed
keys overlap the new folds (`overlap_found`), otherwise union position-wise.
Python iterates over `current_folds` only, ignoring any extra positions of
`folds`; were `folds` the shorter list Python would raise `IndexError`, a
branch the engine never reaches (both lists have the outline's length), and
we return `none` there. -/
def mergeFolds : List Stroke → List Stroke → Option (List Stroke)
  | [], _ => some []
  | _ :: _, [] => none
  | f :: fs, g :: gs =>
    if strokesOverlap f g then none
    else (mergeFolds fs gs).map (fun rest => (f ||| g) :: rest)

/-- The lookup-strategy loop of Rule.py lines 276-280: first strategy to
produce a translation wins. -/
def tryStrategies : List LookupStrategy → Outline → Outline → Outline → Translator →
    Option String
  | [], _, _, _, _ => none
  | strat :: rest, defolded, folds, strokes, tr =>
    match strat defolded folds strokes tr with
    | some translation => some translation
    | none => tryStrategies rest defolded folds strokes tr

/-- The additional/alternative-rule loops of Rule.py lines 270-274 and
282-286, parameterized by the (one-fuel-smaller) interpreter `recur`: invoke
each rule on the defolded outline, threading the shared state, and stop at
the first translation. -/
def tryRulesWith
    (recur : Rule → Outline → Translator → Bool → FoldState → Option String × FoldState) :
    List Rule → Outline → Translator → Bool → FoldState → Option String × FoldState
  | [], _, _, _, st => (none, st)
  | r :: rest, defolded, tr, shorterFound, st =>
    match recur r defolded tr shorterFound st with
    | (some translation, st') => (some translation, st')
    | (none, st') => tryRulesWith recur rest defolded tr shorterFound st'

/-- The enumeration loop of `Rule.__call__` (Rule.py lines 243-297),
parameterized by the interpreter `recur` used for nested rule invocations.
Per `(defolded, folds)` pair: save `last_folds`; claim the folds (skipping
the pair when they overlap the already-claimed keys); seed the memo entry of
the defolded outline from the entry of the original outline; try additional
rules, then lookup strategies, then alternative rules, restoring
`current_folds` to `last_folds` on any successful return (the seeded memo
entry is NOT deleted on success); on failure restore `current_folds`, delete
the seeded entry and continue.  With the pairs exhausted, record this rule as
unmatched for the original outline and decline. -/
def ruleLoopWith
    (recur : Rule → Outline → Translator → Bool → FoldState → Option String × FoldState)
    (adds alts : List Rule) (strats : List LookupStrategy) (rid : Nat)
    (strokes : Outline) (tr : Translator) (shorterFound : Bool) :
    List (Outline × Outline) → FoldState → Option String × FoldState
  | [], st => (none, { st with unmatched := memoAdd st.unmatched strokes rid })
  | (defolded, folds) :: rest, st =>
    let lastFolds := st.currentFolds
    let claimed : Option FoldState :=
      match st.currentFolds with
      | none => some { st with currentFolds := some folds }
      | some cur => (mergeFolds cur folds).map
          (fun merged => { st with currentFolds := some merged })
    match claimed with
    | none =>
      ruleLoopWith recur adds alts strats rid strokes tr shorterFound rest st
    | some st1 =>
      let seeded :=
        match memoGet st1.unmatched strokes with
        | some s => memoInsert st1.unmatched defolded s
        | none => memoInsert st1.unmatched defolded []
      let st2 := { st1 with unmatched := seeded }
      match tryRulesWith recur adds defolded tr shorterFound st2 with
      | (some translation, st3) => (some translation, { st3 with currentFolds := lastFolds })
      | (none, st3) =>
        match tryStrategies strats defolded folds strokes tr with
        | some translation => (some translation, { st3 with currentFolds := lastFolds })
        | none =>
          match tryRulesWith recur alts defolded tr shorterFound st3 with
          | (some translation, st4) =>
            (some translation, { st4 with currentFolds := lastFolds })
          | (none, st4) =>
            ruleLoopWith recur adds alts strats rid strokes tr shorterFound rest
              { st4 with currentFolds := lastFolds,
                         unmatched := memoErase st4.unmatched defolded }

/-- Source `Rule.__call__` (Rule.py lines 233-297), indexed by a fuel bound
on the nesting depth of rule invocations (the Python call tree is finite
because additional/alternative rules form finite trees; every theorem below
holds for every fuel).  In order: the memo-hit check, the empty-first-stroke
check (`len(strokes[0]) == 0`; Python would raise on an empty outline, which
the host never passes — we treat its first stroke as empty), the
shorter-outline suppression check, then the enumeration loop over the
prerequisite's satisfied folds. -/
def ruleCallF : Nat → Rule → Outline → Translator → Bool → FoldState →
    Option String × FoldState
  | 0, _, _, _, _, st => (none, st)
  | fuel + 1, .mk prereq strats adds alts allow rid, strokes, tr, shorterFound, st =>
    if memoHit st.unmatched strokes rid then (none, st)
    else if strokes.headD 0 = 0 then (none, st)
    else if shorterFound && !allow then (none, st)
    else
      ruleLoopWith (ruleCallF fuel) adds alts strats rid strokes tr shorterFound
        (prereq.satisfiedFolds strokes) st

/-- Popcount of a stroke bitmask: Python `len(substroke)` (the number of
keys), used by the builder to order fold cases longest-first. -/
def strokeLen (s : Stroke) : Nat :=
  if s = 0 then 0 else s % 2 + strokeLen (s / 2)
decreasing_by exact Nat.div_lt_self (Nat.pos_of_ne_zero (by assumption)) one_lt_two

/-- Source `_ClauseBuilder.folds` (builder.py lines 289-303): one case per
given substroke, sorted by key count descending (`sorted(key=len,
reverse=True)`, a stable sort), each with an empty toggled substroke. -/
def foldsCases (substrokes : List Stroke) : List Case :=
  (substrokes.mergeSort (fun a b => decide (strokeLen b ≤ strokeLen a))).map
    (fun substroke => Case.mk substroke emptyStroke)

/-- Source `_ClauseBuilder.toggles` (builder.py lines 307-321): one case per
given substroke, sorted by key count descending, each with an empty contained
substroke. -/
def togglesCases (substrokes : List Stroke) : List Case :=
  (substrokes.mergeSort (fun a b => decide (strokeLen b ≤ strokeLen a))).map
    (fun substroke => Case.mk emptyStroke substroke)

/-- Cross product in front-recursive form: consecutive combinations differ in
the FIRST list's choice first.  This definition renders the enumeration-order
wording under test; the theorems below prove it equal to the source's
`_all_combinations`, whose recursion over `last_index` makes the first list
the innermost loop. -/
def crossFirstFastest : List (List α) → List (List α)
  | [] => [[]]
  | l :: rest =>
    (crossFirstFastest rest).flatMap (fun combination =>
      l.map (fun option => option :: combination))

/-- Concrete cases used by the enumeration counterexamples: all four are
satisfied by the one-stroke outline `[3]` (bitmask `0b11`). -/
def caseA : Case := Case.mk 1 0

/-- Second case of the first example condition. -/
def caseB : Case := Case.mk 2 0

/-- First case of the second example condition. -/
def caseC : Case := Case.mk 3 0

/-- Second case of the second example condition. -/
def caseD : Case := Case.mk 0 0

/-- A clause with two conditions holding 2 satisfied cases each over `[3]`. -/
def exClause2 : Clause :=
  Clause.mk id [Condition.mk [caseA, caseB], Condition.mk [caseC, caseD]]

/-- First child clause of the conjunctive example statement. -/
def exChild1 : Clause := Clause.mk id [Condition.mk [caseA, caseB]]

/-- Second child clause of the conjunctive example statement. -/
def exChild2 : Clause := Clause.mk id [Condition.mk [caseC, caseD]]

/-- A conjunctive statement over two children that each yield two case groups
on the outline `[3]`. -/
def exConjStatement : Stmt :=
  Stmt.comp true [Stmt.clause exChild1, Stmt.clause exChild2]

end PloverCustomFolding

namespace PloverCustomFolding

/-! Combinatorial facts about `_all_combinations`. -/

theorem getD_append_left {α : Type _} (xs ys : List α) (j : Nat) (d : α)
    (h : j < xs.length) : (xs ++ ys).getD j d = xs.getD j d := by
  rw [List.getD, List.getD, List.get?_eq_getElem?, List.get?_eq_getElem?,
    List.getElem?_append, if_pos h]

theorem getD_append_at_length {α : Type _} (xs : List α) (y : α) (d : α) :
    (xs ++ [y]).getD xs.length d = y := by
  rw [List.getD, List.get?_eq_getElem?, List.getElem?_append, if_neg (lt_irrefl _)]
  simp

theorem allCombinationsAux_append {α : Type _} (l : List (List α)) (x : List α) :
    ∀ j, j ≤ l.length → allCombinationsAux (l ++ [x]) j = allCombinationsAux l j
  | 0, _ => rfl
  | j + 1, h => by
    have hj : j < l.length := h
    simp only [allCombinationsAux]
    rw [allCombinationsAux_append l x j (le_of_lt hj), getD_append_left _ _ _ _ hj]

theorem allCombinations_concat {α : Type _} (l : List (List α)) (x : List α) :
    allCombinations (l ++ [x])
      = x.flatMap (fun option => (allCombinations l).map (fun comb => comb ++ [option])) := by
  unfold allCombinations
  have hlen : (l ++ [x]).length = l.length + 1 := by simp
  rw [hlen]
  simp only [allCombinationsAux]
  rw [getD_append_at_length, allCombinationsAux_append l x l.length le_rfl]

theorem crossFirstFastest_concat {α : Type _} (x : List α) : ∀ (l : List (List α)),
    crossFirstFastest (l ++ [x])
      = x.flatMap (fun option => (crossFirstFastest l).map (fun comb => comb ++ [option]))
  | [] => by
    simp only [List.nil_append, crossFirstFastest, List.flatMap_nil, List.map_nil]
    induction x <;> simp_all [crossFirstFastest]
  | a :: l => by
    show crossFirstFastest (a :: (l ++ [x])) = _
    simp only [crossFirstFastest]
    rw [crossFirstFastest_concat x l]
    simp only [List.flatMap_assoc, List.map_flatMap, List.flatMap_map, List.map_map]
    exact congrArg _ (funext fun o => congrArg _ (funext fun c => by
      simp [Function.comp]))

theorem allCombinations_eq_crossFirstFastest {α : Type _} (options : List (List α)) :
    allCombinations options = crossFirstFastest options := by
  induction options using List.reverseRecOn with
  | nil => rfl
  | append_singleton l x ih => rw [allCombinations_concat, crossFirstFastest_concat, ih]

theorem length_crossFirstFastest {α : Type _} : ∀ (options : List (List α)),
    (crossFirstFastest options).length = (options.map List.length).prod
  | [] => rfl
  | l :: rest => by
    simp only [crossFirstFastest, List.map_cons, List.prod_cons]
    rw [List.length_flatMap]
    simp only [Function.comp_def, List.length_map, List.map_const', List.sum_replicate,
      smul_eq_mul]
    rw [length_crossFirstFastest rest]
    exact Nat.mul_comm _ _

/-- C2 (counterexample): for the clause with conditions `[caseA, caseB]` and
`[caseC, caseD]`, all four cases satisfied over the outline `[3]`, the code
yields the four case groups with the FIRST condition's case varying fastest:
`AC, BC, AD, BD`.  The claimed last-condition-varies-fastest order would be
`AC, AD, BC, BD`, which the yielded sequence is not. -/
theorem clause_order_counterexample :
    ((exClause2.satisfiedCaseGroups [3]).map (fun g => g.map (fun p => p.1))
        = [[caseA, caseC], [caseB, caseC], [caseA, caseD], [caseB, caseD]])
    ∧ ((exClause2.satisfiedCaseGroups [3]).map (fun g => g.map (fun p => p.1))
        ≠ [[caseA, caseC], [caseA, caseD], [caseB, caseC], [caseB, caseD]]) := by
  constructor
  · decide
  · decide

/-- C2 (amended): a Clause with `k` Conditions having `n_i` satisfied Cases
over the filtered strokes yields exactly `∏ n_i` case groups, ordered with
the FIRST Condition's satisfied Cases varying fastest between consecutive
groups (the last Condition varies slowest): the yielded sequence is the
front-recursive cross product `crossFirstFastest`, with every chosen case
paired with the clause's stroke filter. -/
theorem clause_satisfied_case_groups_cross_product (cl : Clause) (strokes : Outline) :
    cl.satisfiedCaseGroups strokes
      = (crossFirstFastest (cl.conditions.map
            (fun condition => condition.satisfiedCases (cl.strokeFilter strokes)))).map
          (fun cases => cases.map (fun c => (c, cl.strokeFilter)))
    ∧ (cl.satisfiedCaseGroups strokes).length
      = (cl.conditions.map
          (fun condition => (condition.satisfiedCases (cl.strokeFilter strokes)).length)).prod := by
  constructor
  · simp only [Clause.satisfiedCaseGroups, caseGroupsOf]
    rw [allCombinations_eq_crossFirstFastest]
  · simp only [Clause.satisfiedCaseGroups, caseGroupsOf]
    rw [List.length_map, allCombinations_eq_crossFirstFastest, length_crossFirstFastest,
      List.map_map]
    rfl

/-- C1 (code evaluation at the failing input): over the outline `[3]`, each
child clause of `exConjStatement` yields 2 case groups, so the claimed
per-combination enumeration would yield 4 merged case groups; the code
instead yields a SINGLE case group that merges every combination —
`running_case_group` is initialized once outside the combination loop of
`Statement.satisfied_case_groups` and yielded once, so the one yielded group
concatenates all four combinations (`AC ++ BC ++ AD ++ BD`). -/
theorem conjunctive_statement_merges_all_combinations :
    ((Stmt.clause exChild1).satisfiedCaseGroups [3]).length = 2
    ∧ ((Stmt.clause exChild2).satisfiedCaseGroups [3]).length = 2
    ∧ ((exConjStatement.satisfiedCaseGroups [3]).map (fun g => g.map (fun p => p.1))
        = [[caseA, caseC, caseB, caseC, caseA, caseD, caseB, caseD]]) := by
  refine ⟨by decide, by decide, by decide⟩

/-! Disjunctive statements: first satisfying child wins. -/

theorem stmtGroupsList_eq_map : ∀ (subs : List Stmt) (strokes : Outline),
    stmtGroupsList subs strokes = subs.map (fun s => s.satisfiedCaseGroups strokes)
  | [], _ => rfl
  | s :: rest, strokes => by
    simp only [stmtGroupsList, List.map_cons, List.cons.injEq, true_and]
    exact stmtGroupsList_eq_map rest strokes

theorem firstSatisfied_of_front_empty :
    ∀ (pres : List (List CaseGroup)) (gs : List CaseGroup) (rest : List (List CaseGroup)),
    (∀ p ∈ pres, p = []) → gs ≠ [] → firstSatisfied (pres ++ gs :: rest) = gs
  | [], gs, rest, _, hne => by
    cases gs with
    | nil => exact absurd rfl hne
    | cons g gs => rfl
  | p :: pres, gs, rest, hall, hne => by
    have hp : p = [] := hall p (List.mem_cons_self _ _)
    subst hp
    show firstSatisfied ([] :: (pres ++ gs :: rest)) = gs
    exact firstSatisfied_of_front_empty pres gs rest
      (fun q hq => hall q (List.mem_cons_of_mem _ hq)) hne

/-- C9: a disjunctive Statement yields exactly the case groups of the first
child that yields at least one, and nothing from any later child: with every
child before `c` yielding no case groups and `c` yielding at least one, the
disjunctive statement's yielded sequence is precisely `c`'s, whatever
children follow. -/
theorem disjunctive_statement_first_satisfying_child_wins (strokes : Outline)
    (pre : List Stmt) (c : Stmt) (post : List Stmt)
    (hpre : ∀ p ∈ pre, p.satisfiedCaseGroups strokes = [])
    (hc : c.satisfiedCaseGroups strokes ≠ []) :
    (Stmt.comp false (pre ++ c :: post)).satisfiedCaseGroups strokes
      = c.satisfiedCaseGroups strokes := by
  have hunfold : (Stmt.comp false (pre ++ c :: post)).satisfiedCaseGroups strokes
      = firstSatisfied (stmtGroupsList (pre ++ c :: post) strokes) := by
    simp [Stmt.satisfiedCaseGroups]
  rw [hunfold, stmtGroupsList_eq_map, List.map_append, List.map_cons]
  refine firstSatisfied_of_front_empty _ _ _ ?_ hc
  intro p hp
  obtain ⟨q, hq, rfl⟩ := List.mem_map.mp hp
  exact hpre q hq

/-- C9 (witness): the middle clause (requiring key bit `1`) is the first
satisfying child over `[3]`; the unsatisfied clause before it (requiring key
bit `8`) yields nothing, and the disjunctive statement yields exactly the
middle child's groups even with a satisfiable clause after it. -/
theorem disjunctive_statement_first_satisfying_child_wins_witness :
    ((∀ p ∈ [Stmt.clause (Clause.mk id [Condition.mk [Case.mk 8 0]])],
        p.satisfiedCaseGroups [3] = [])
      ∧ (Stmt.clause (Clause.mk id [Condition.mk [Case.mk 1 0]])).satisfiedCaseGroups [3] ≠ [])
    ∧ (Stmt.comp false [Stmt.clause (Clause.mk id [Condition.mk [Case.mk 8 0]]),
          Stmt.clause (Clause.mk id [Condition.mk [Case.mk 1 0]]),
          Stmt.clause (Clause.mk id [Condition.mk [Case.mk 2 0]])]).satisfiedCaseGroups [3]
        = (Stmt.clause (Clause.mk id [Condition.mk [Case.mk 1 0]])).satisfiedCaseGroups [3] := by
  have hpre : ∀ p ∈ [Stmt.clause (Clause.mk id [Condition.mk [Case.mk 8 0]])],
      Stmt.satisfiedCaseGroups p [3] = [] := by
    intro p hp
    rw [List.mem_singleton] at hp
    subst hp
    rfl
  have hc : (Stmt.clause (Clause.mk id [Condition.mk [Case.mk 1 0]])).satisfiedCaseGroups [3]
      ≠ [] := List.cons_ne_nil _ _
  exact ⟨⟨hpre, hc⟩,
    disjunctive_statement_first_satisfying_child_wins [3]
      [Stmt.clause (Clause.mk id [Condition.mk [Case.mk 8 0]])]
      (Stmt.clause (Clause.mk id [Condition.mk [Case.mk 1 0]]))
      [Stmt.clause (Clause.mk id [Condition.mk [Case.mk 2 0]])] hpre hc⟩

/-! Stroke bit algebra: Case construction and the remove-fold round trip. -/

theorem land_testBit_false {a b : Stroke} (h : a &&& b = 0) (i : Nat) :
    (a.testBit i && b.testBit i) = false := by
  have hbit := congrArg (fun n => n.testBit i) h
  simpa [Nat.testBit_land] using hbit

/-- C6 (counterexample): `Case.__init__` stores its two substrokes without
any check — the overlap assertion survives in the source only as the
commented-out Rule.py line 132 — so a Case whose contained and toggled
substrokes share a key (here the key of bit 0 on both sides) is constructed
successfully, refuting that every existing Case has non-overlapping
substrokes. -/
theorem case_construction_unchecked_counterexample :
    strokesOverlap (Case.mk 1 1).containedSubstroke (Case.mk 1 1).toggledSubstroke := by
  decide

/-- C6 (amended): Case construction performs no overlap check (the assertion
is commented out), so overlapping Cases can be constructed directly; however
every Case produced by the rule-building surface — `folds` and `toggles` of
`builder.py` — has an empty toggled (respectively contained) substroke, so
its contained and toggled substrokes never overlap. -/
theorem builder_cases_never_overlap (substrokes : List Stroke) :
    (∀ c ∈ foldsCases substrokes, c.toggledSubstroke = emptyStroke
        ∧ ¬ strokesOverlap c.containedSubstroke c.toggledSubstroke)
    ∧ (∀ c ∈ togglesCases substrokes, c.containedSubstroke = emptyStroke
        ∧ ¬ strokesOverlap c.containedSubstroke c.toggledSubstroke) := by
  constructor
  · intro c hc
    obtain ⟨s, hs, rfl⟩ := List.mem_map.mp hc
    exact ⟨rfl, by simp [strokesOverlap, emptyStroke]⟩
  · intro c hc
    obtain ⟨s, hs, rfl⟩ := List.mem_map.mp hc
    exact ⟨rfl, by simp [strokesOverlap, emptyStroke]⟩

/-- C6 (witness): the fold builder applied to the single substroke `3`
produces the Case `(3, empty)`, whose substrokes do not overlap. -/
theorem builder_cases_never_overlap_witness :
    (Case.mk 3 emptyStroke ∈ foldsCases [3])
    ∧ (Case.mk 3 emptyStroke).toggledSubstroke = emptyStroke
    ∧ ¬ strokesOverlap (Case.mk 3 emptyStroke).containedSubstroke
        (Case.mk 3 emptyStroke).toggledSubstroke := by
  have hmem : Case.mk 3 emptyStroke ∈ foldsCases [3] := by
    simp [foldsCases]
  exact ⟨hmem, ((builder_cases_never_overlap [3]).1 _ hmem).1,
    ((builder_cases_never_overlap [3]).1 _ hmem).2⟩

/-- C7 (counterexample): the round trip fails for chords that share keys
with the case's substrokes.  First failure: the case `(contained = 1,
toggled = 2)` and the chord `1`, which CONTAINS the contained substroke as
the claim hypothesizes; folding gives `3` and `remove_fold 3 = 0 ≠ 1`.
Second failure: the case `(contained = 0, toggled = 3)` and the chord `1`,
which contains `0` and does NOT contain `3` (only one of its two keys), yet
folding gives `3` and `remove_fold 3 = 0 ≠ 1`. -/
theorem case_round_trip_counterexample :
    (strokeContains 1 (Case.mk 1 2).containedSubstroke
      ∧ ¬ strokesOverlap (Case.mk 1 2).containedSubstroke (Case.mk 1 2).toggledSubstroke
      ∧ ¬ strokeContains 1 (Case.mk 1 2).toggledSubstroke
      ∧ (Case.mk 1 2).removeFold (1 ||| (Case.mk 1 2).foldSubstroke) ≠ 1)
    ∧ (strokeContains 1 (Case.mk 0 3).containedSubstroke
      ∧ ¬ strokesOverlap (Case.mk 0 3).containedSubstroke (Case.mk 0 3).toggledSubstroke
      ∧ ¬ strokeContains 1 (Case.mk 0 3).toggledSubstroke
      ∧ (Case.mk 0 3).removeFold (1 ||| (Case.mk 0 3).foldSubstroke) ≠ 1) := by
  decide

/-- C7 (amended): for every Case with non-overlapping contained/toggled
substrokes and every chord that shares no key with the contained substroke
and no key with the toggled substroke, applying the fold to the chord
(adding `fold_substroke = contained + toggled`) and then applying
`remove_fold` reproduces the original chord. -/
theorem case_remove_fold_round_trip (c : Case) (chord : Stroke)
    (hct : ¬ strokesOverlap c.containedSubstroke c.toggledSubstroke)
    (hcc : ¬ strokesOverlap chord c.containedSubstroke)
    (hcht : ¬ strokesOverlap chord c.toggledSubstroke) :
    c.removeFold (chord ||| c.foldSubstroke) = chord := by
  obtain ⟨C, T⟩ := c
  simp only [strokesOverlap, ne_eq, not_not] at hct hcc hcht
  simp only [Case.removeFold, Case.foldSubstroke]
  have h1 : strokeDiff (chord ||| (C ||| T)) C = chord ||| T := by
    apply Nat.eq_of_testBit_eq
    intro i
    have hb1 := land_testBit_false hct i
    have hb2 := land_testBit_false hcc i
    simp only [strokeDiff, Nat.testBit_xor, Nat.testBit_land, Nat.testBit_lor]
    cases ha : chord.testBit i <;> cases hc' : C.testBit i <;> cases ht : T.testBit i <;>
      simp_all
  have h2 : strokeContains (chord ||| T) T := by
    apply Nat.eq_of_testBit_eq
    intro i
    simp only [Nat.testBit_land, Nat.testBit_lor]
    cases ht : T.testBit i <;> simp
  have h3 : strokeDiff (chord ||| T) T = chord := by
    apply Nat.eq_of_testBit_eq
    intro i
    have hb3 := land_testBit_false hcht i
    simp only [strokeDiff, Nat.testBit_xor, Nat.testBit_land, Nat.testBit_lor]
    cases ha : chord.testBit i <;> cases ht : T.testBit i <;> simp_all
  rw [h1, toggleSubstroke, if_pos h2, h3]

/-- C7 (witness): the case `(contained = 1, toggled = 2)` and the chord `4`
(disjoint from both substrokes): folding gives `7` and `remove_fold 7 = 4`
reproduces the chord. -/
theorem case_remove_fold_round_trip_witness :
    (¬ strokesOverlap (Case.mk 1 2).containedSubstroke (Case.mk 1 2).toggledSubstroke
      ∧ ¬ strokesOverlap 4 (Case.mk 1 2).containedSubstroke
      ∧ ¬ strokesOverlap 4 (Case.mk 1 2).toggledSubstroke)
    ∧ (Case.mk 1 2).removeFold (4 ||| (Case.mk 1 2).foldSubstroke) = 4 :=
  ⟨⟨by decide, by decide, by decide⟩,
    case_remove_fold_round_trip (Case.mk 1 2) 4 (by decide) (by decide) (by decide)⟩

/-! The stroke-to-index mapping maps every stroke value to its LAST
occurrence in the outline. -/

theorem foldl_insert_eq_lastIdxFrom (xs : List Stroke) :
    ∀ (n : Nat) (m0 : Stroke → Option Nat) (s : Stroke),
    (List.foldl (fun m p => fun s' => if s' = p.2 then some p.1 else m s') m0
        (List.enumFrom n xs)) s
      = match lastIdxFrom xs s n with
        | some j => some j
        | none => m0 s := by
  induction xs with
  | nil => intro n m0 s; rfl
  | cons x xs ih =>
    intro n m0 s
    rw [show List.enumFrom n (x :: xs) = (n, x) :: List.enumFrom (n + 1) xs from rfl,
      List.foldl_cons, ih (n + 1) _ s]
    simp only [lastIdxFrom]
    cases h : lastIdxFrom xs s (n + 1) with
    | some j => rfl
    | none => by_cases hsx : s = x <;> simp [hsx]

theorem strokeIndexMapping_eq_lastIdxFrom (strokes : Outline) (s : Stroke) :
    strokeIndexMapping strokes s = lastIdxFrom strokes s 0 := by
  unfold strokeIndexMapping
  rw [show strokes.enum = List.enumFrom 0 strokes from rfl,
    foldl_insert_eq_lastIdxFrom strokes 0 (fun _ => none) s]
  cases h : lastIdxFrom strokes s 0 <;> rfl

theorem lastIdxFrom_none (s : Stroke) :
    ∀ (xs : List Stroke) (n : Nat), lastIdxFrom xs s n = none →
      ∀ k, xs.get? k ≠ some s
  | [], _, _, k => by simp
  | x :: xs, n, h, k => by
    simp only [lastIdxFrom] at h
    cases h' : lastIdxFrom xs s (n + 1) with
    | some j => rw [h'] at h; exact absurd h (by simp)
    | none =>
      rw [h'] at h
      have hsx : s ≠ x := by
        intro he
        rw [if_pos he] at h
        exact absurd h (by simp)
      cases k with
      | zero =>
        simp only [List.get?_cons_zero, ne_eq, Option.some.injEq]
        exact fun he => hsx he.symm
      | succ k => exact lastIdxFrom_none s xs (n + 1) h' k

theorem lastIdxFrom_sound (s : Stroke) :
    ∀ (xs : List Stroke) (n j : Nat), lastIdxFrom xs s n = some j →
      n ≤ j ∧ xs.get? (j - n) = some s ∧ ∀ m, j - n < m → xs.get? m ≠ some s
  | [], _, _, h => absurd h (by simp [lastIdxFrom])
  | x :: xs, n, j, h => by
    simp only [lastIdxFrom] at h
    cases h' : lastIdxFrom xs s (n + 1) with
    | some j' =>
      rw [h'] at h
      have hjj : j' = j := by simpa using h
      obtain ⟨hnj, hget, hnone⟩ := lastIdxFrom_sound s xs (n + 1) j' h'
      refine ⟨by omega, ?_, ?_⟩
      · have hj : j - n = (j' - (n + 1)) + 1 := by omega
        rw [hj]
        simpa using hget
      · intro m hm
        cases m with
        | zero => omega
        | succ m =>
          have hlt : j' - (n + 1) < m := by omega
          simpa using hnone m hlt
    | none =>
      rw [h'] at h
      by_cases hsx : s = x
      · rw [if_pos hsx] at h
        obtain rfl : n = j := by simpa using h
        refine ⟨le_rfl, by simp [Nat.sub_self, hsx], ?_⟩
        intro m hm
        cases m with
        | zero => omega
        | succ m => simpa using lastIdxFrom_none s xs (n + 1) h' m
      · rw [if_neg hsx] at h
        exact absurd h (by simp)

theorem lastIdxFrom_complete (s : Stroke) :
    ∀ (xs : List Stroke) (j n : Nat), xs.get? j = some s →
      (∀ m, j < m → xs.get? m ≠ some s) → lastIdxFrom xs s n = some (n + j)
  | [], j, n, h, _ => absurd h (by simp)
  | x :: xs, j, n, hget, hafter => by
    cases j with
    | zero =>
      have hx : x = s := by simpa using hget
      have hnone : lastIdxFrom xs s (n + 1) = none := by
        cases h' : lastIdxFrom xs s (n + 1) with
        | none => rfl
        | some j' =>
          obtain ⟨hnj, hg, _⟩ := lastIdxFrom_sound s xs (n + 1) j' h'
          exact absurd hg (by simpa using hafter (j' - (n + 1) + 1) (by omega))
      simp only [lastIdxFrom, hnone]
      rw [if_pos hx.symm]
      simp
    | succ j =>
      have hx : xs.get? j = some s := by simpa using hget
      have hafter' : ∀ m, j < m → xs.get? m ≠ some s := by
        intro m hm
        simpa using hafter (m + 1) (by omega)
      simp only [lastIdxFrom, lastIdxFrom_complete s xs j (n + 1) hx hafter']
      exact congrArg some (by omega)

/-- An index that is never the image of the stroke-to-index mapping is left
untouched by the per-stroke update loops of `remove_folds`/`get_folds`. -/
theorem inner_update_get_ne (strokes : Outline) (i : Nat)
    (hmap : ∀ v k, strokeIndexMapping strokes v = some k → k ≠ i)
    (F : Stroke → Stroke) :
    ∀ (l : List Stroke) (init : List Stroke),
    (l.foldl (fun ns stroke =>
        match strokeIndexMapping strokes stroke with
        | some idx => ns.set idx (F (ns.getD idx 0))
        | none => ns) init).get? i = init.get? i
  | [], _ => rfl
  | stroke :: l, init => by
    rw [List.foldl_cons, inner_update_get_ne strokes i hmap F l _]
    cases h : strokeIndexMapping strokes stroke with
    | none => simp [h]
    | some idx =>
      have hne : idx ≠ i := hmap stroke idx h
      simp only [h]
      rw [List.get?_eq_getElem?, List.get?_eq_getElem?, List.getElem?_set_ne hne]

theorem outer_update_get_ne (strokes : Outline) (i : Nat)
    (hmap : ∀ v k, strokeIndexMapping strokes v = some k → k ≠ i)
    (upd : Case → Stroke → Stroke) :
    ∀ (g : List (Case × StrokeFilter)) (init : List Stroke),
    (g.foldl (fun ns cf =>
        (cf.2 strokes).foldl (fun ns' stroke =>
          match strokeIndexMapping strokes stroke with
          | some idx => ns'.set idx (upd cf.1 (ns'.getD idx 0))
          | none => ns') ns) init).get? i = init.get? i
  | [], _ => rfl
  | cf :: g, init => by
    rw [List.foldl_cons, outer_update_get_ne strokes i hmap upd g _]
    exact inner_update_get_ne strokes i hmap (upd cf.1) (cf.2 strokes) init

/-- C10: the stroke-to-index mapping is keyed by chord value and maps every
value to its LAST occurrence in the outline (first two conjuncts), so for an
outline with two positions holding equal chord values the earlier position
is never written: `remove_folds` leaves it unchanged and `get_folds` leaves
it empty (third conjunct); each selected occurrence applies the update once,
at the last occurrence's position (fourth conjunct: with both occurrences of
a duplicated stroke selected, `remove_fold` is applied twice at the last
position and the fold substroke accumulated there). -/
theorem stroke_index_mapping_last_occurrence :
    (∀ (strokes : Outline) (v : Stroke) (k : Nat),
        strokeIndexMapping strokes v = some k →
        strokes.get? k = some v ∧ ∀ m, k < m → strokes.get? m ≠ some v)
    ∧ (∀ (strokes : Outline) (v : Stroke) (j : Nat),
        strokes.get? j = some v → (∀ m, j < m → strokes.get? m ≠ some v) →
        strokeIndexMapping strokes v = some j)
    ∧ (∀ (g : CaseGroup) (strokes : Outline) (i j : Nat) (v : Stroke),
        i < j → strokes.get? i = some v → strokes.get? j = some v →
        (CaseGroup.removeFolds g strokes).get? i = some v
          ∧ (CaseGroup.getFolds g strokes).get? i = some emptyStroke)
    ∧ (∀ (c : Case) (s : Stroke),
        CaseGroup.removeFolds [(c, fun o => o)] [s, s]
            = [s, c.removeFold (c.removeFold s)]
          ∧ CaseGroup.getFolds [(c, fun o => o)] [s, s]
            = [emptyStroke, c.foldSubstroke]) := by
  have hsound : ∀ (strokes : Outline) (v : Stroke) (k : Nat),
      strokeIndexMapping strokes v = some k →
      strokes.get? k = some v ∧ ∀ m, k < m → strokes.get? m ≠ some v := by
    intro strokes v k hk
    rw [strokeIndexMapping_eq_lastIdxFrom] at hk
    obtain ⟨-, hget, hafter⟩ := lastIdxFrom_sound v strokes 0 k hk
    exact ⟨by simpa using hget, fun m hm => hafter m (by omega)⟩
  have hcomplete : ∀ (strokes : Outline) (v : Stroke) (j : Nat),
      strokes.get? j = some v → (∀ m, j < m → strokes.get? m ≠ some v) →
      strokeIndexMapping strokes v = some j := by
    intro strokes v j hget hafter
    rw [strokeIndexMapping_eq_lastIdxFrom]
    simpa using lastIdxFrom_complete v strokes j 0 hget hafter
  refine ⟨hsound, hcomplete, ?_, ?_⟩
  · intro g strokes i j v hij hi hj
    have hmap : ∀ v' k, strokeIndexMapping strokes v' = some k → k ≠ i := by
      intro v' k hk hki
      subst hki
      obtain ⟨hgetk, hafterk⟩ := hsound strokes v' k hk
      have hv : v' = v := by
        rw [hi] at hgetk
        exact (Option.some_inj.mp hgetk).symm
      exact hafterk j hij (hv ▸ hj)
    constructor
    · rw [show (CaseGroup.removeFolds g strokes).get? i = strokes.get? i from
        outer_update_get_ne strokes i hmap (fun c x => c.removeFold x) g strokes]
      exact hi
    · rw [show (CaseGroup.getFolds g strokes).get? i
            = (List.replicate strokes.length emptyStroke).get? i from
        outer_update_get_ne strokes i hmap (fun c x => x ||| c.foldSubstroke) g _]
      obtain ⟨hjlen, -⟩ := List.get?_eq_some.mp hj
      rw [List.get?_eq_getElem?, List.getElem?_replicate, if_pos (by omega)]
  · intro c s
    constructor
    · simp [CaseGroup.removeFolds, strokeIndexMapping, List.enum, List.enumFrom,
        List.foldl, List.set, List.getD]
    · simp [CaseGroup.getFolds, strokeIndexMapping, List.enum, List.enumFrom,
        List.foldl, List.set, List.getD, emptyStroke]

/-- C10 (witness): in the outline `[5, 5]` both positions hold the chord
value `5`; position 0 has a later equal occurrence, so `remove_folds` leaves
it unchanged and `get_folds` leaves it empty. -/
theorem stroke_index_mapping_last_occurrence_witness :
    ((0 : Nat) < 1 ∧ ([5, 5] : Outline).get? 0 = some 5
      ∧ ([5, 5] : Outline).get? 1 = some 5)
    ∧ (CaseGroup.removeFolds [(Case.mk 1 0, fun o => o)] [5, 5]).get? 0 = some 5
    ∧ (CaseGroup.getFolds [(Case.mk 1 0, fun o => o)] [5, 5]).get? 0 = some emptyStroke :=
  ⟨⟨by decide, by decide, by decide⟩,
    (stroke_index_mapping_last_occurrence.2.2.1 [(Case.mk 1 0, fun o => o)] [5, 5] 0 1 5
      (by decide) (by decide) (by decide)).1,
    (stroke_index_mapping_last_occurrence.2.2.1 [(Case.mk 1 0, fun o => o)] [5, 5] 0 1 5
      (by decide) (by decide) (by decide)).2⟩

/-! The fold-overlap claim table is restored on every exit path of
`Rule.__call__`. -/

theorem ruleLoopWith_currentFolds
    (recur : Rule → Outline → Translator → Bool → FoldState → Option String × FoldState)
    (adds alts : List Rule) (strats : List LookupStrategy) (rid : Nat)
    (strokes : Outline) (tr : Translator) (sf : Bool) :
    ∀ (pairs : List (Outline × Outline)) (st : FoldState),
    ((ruleLoopWith recur adds alts strats rid strokes tr sf pairs st).2).currentFolds
      = st.currentFolds
  | [], _ => rfl
  | (defolded, folds) :: rest, st => by
    have hrest := ruleLoopWith_currentFolds recur adds alts strats rid strokes tr sf rest
    simp only [ruleLoopWith]
    split
    · exact hrest st
    · split
      · rfl
      · split
        · rfl
        · split
          · rfl
          · exact hrest _

/-- C4: on every exit path of `Rule.__call__` — a translation returned from
an additional rule, from a lookup strategy, or from an alternative rule, and
the decline after exhausting all enumerated pairs (including the memo-hit,
empty-first-stroke and shorter-outline early declines) — the fold-overlap
claim table `Rule.__current_folds` after the invocation equals its value
before the invocation, for every nesting depth (fuel), rule, outline,
translator and state. -/
theorem rule_call_restores_current_folds (fuel : Nat) (r : Rule) (strokes : Outline)
    (tr : Translator) (sf : Bool) (st : FoldState) :
    ((ruleCallF fuel r strokes tr sf st).2).currentFolds = st.currentFolds := by
  cases fuel with
  | zero => rfl
  | succ fuel =>
    cases r with
    | mk prereq strats adds alts allow rid =>
      simp only [ruleCallF]
      by_cases h1 : memoHit st.unmatched strokes rid = true
      · rw [if_pos h1]
      · rw [if_neg h1]
        by_cases h2 : strokes.headD 0 = 0
        · rw [if_pos h2]
        · rw [if_neg h2]
          by_cases h3 : (sf && !allow) = true
          · rw [if_pos h3]
          · rw [if_neg h3]
            exact ruleLoopWith_currentFolds (ruleCallF fuel) adds alts strats rid strokes
              tr sf (prereq.satisfiedFolds strokes) st

/-- C5: when the memo set already records this rule's identity as unmatched
for this outline (within the current memo epoch, i.e. since the last
`clear_unmatched_rules`), `Rule.__call__` returns no-match immediately with
the state untouched — for EVERY prerequisite, strategy list, nested-rule
lists, translator and fuel, so the Prerequisite is never enumerated and no
nested work happens; in particular a cyclic re-invocation of the rule on the
same outline (through a dictionary query) hits this branch and resolves to
no-match at once, independent of the remaining recursion depth. -/
theorem rule_memoized_unmatched_short_circuits
    (fuel : Nat) (prereq : Prerequisite) (strats : List LookupStrategy)
    (adds alts : List Rule) (allow : Bool) (rid : Nat) (strokes : Outline)
    (tr : Translator) (sf : Bool) (st : FoldState)
    (h : memoHit st.unmatched strokes rid = true) :
    ruleCallF fuel (Rule.mk prereq strats adds alts allow rid) strokes tr sf st
      = (none, st) := by
  cases fuel with
  | zero => rfl
  | succ fuel =>
    simp only [ruleCallF]
    rw [if_pos h]

/-- C5 (witness): a state whose memo records rule identity 7 as unmatched for
the outline `[3]` makes the rule with that identity decline immediately. -/
theorem rule_memoized_unmatched_short_circuits_witness :
    memoHit (FoldState.mk none [([3], [7])]).unmatched [3] 7 = true
    ∧ ruleCallF 5 (Rule.mk [] [] [] [] false 7) [3] (fun _ => none) false
        (FoldState.mk none [([3], [7])])
      = (none, FoldState.mk none [([3], [7])]) :=
  ⟨by decide,
    rule_memoized_unmatched_short_circuits 5 [] [] [] [] false 7 [3] (fun _ => none) false
      (FoldState.mk none [([3], [7])]) (by decide)⟩

/-! Overlapping fold claims skip the enumerated pair. -/

theorem mergeFolds_eq_none_of_overlap :
    ∀ (cur folds : List Stroke) (i : Nat), i < cur.length → cur.length ≤ folds.length →
    strokesOverlap (cur.getD i 0) (folds.getD i 0) → mergeFolds cur folds = none
  | [], _, i, hi, _, _ => absurd hi (by simp)
  | _ :: _, [], _, _, _, _ => rfl
  | f :: fs, g :: gs, i, hi, hlen, hov => by
    simp only [mergeFolds]
    cases i with
    | zero =>
      have hfg : strokesOverlap f g := by simpa using hov
      rw [if_pos hfg]
    | succ i =>
      by_cases hfg : strokesOverlap f g
      · rw [if_pos hfg]
      · rw [if_neg hfg,
          mergeFolds_eq_none_of_overlap fs gs i (by simpa using hi) (by simpa using hlen)
            (by simpa using hov)]
        rfl

/-- C3: an enumerated `(defolded, folds)` pair whose folds overlap an
already-claimed key at the same chord position is skipped, and the loop
continues with the next enumerated pair on the unchanged state: the claim
table keeps only the first claimant of a key, so within one lookup at most
one invocation — the first tried — succeeds with a claim on that key. -/
theorem rule_overlapping_pair_skipped
    (fuel : Nat) (adds alts : List Rule) (strats : List LookupStrategy) (rid : Nat)
    (strokes : Outline) (tr : Translator) (sf : Bool)
    (defolded folds : Outline) (rest : List (Outline × Outline))
    (st : FoldState) (cur : List Stroke)
    (hcur : st.currentFolds = some cur)
    (hlen : cur.length ≤ folds.length)
    (hov : ∃ i, i < cur.length ∧ strokesOverlap (cur.getD i 0) (folds.getD i 0)) :
    ruleLoopWith (ruleCallF fuel) adds alts strats rid strokes tr sf
        ((defolded, folds) :: rest) st
      = ruleLoopWith (ruleCallF fuel) adds alts strats rid strokes tr sf rest st := by
  obtain ⟨i, hi, hovi⟩ := hov
  have hmerge : mergeFolds cur folds = none :=
    mergeFolds_eq_none_of_overlap cur folds i hi hlen hovi
  simp only [ruleLoopWith, hcur, hmerge, Option.map_none']

/-- C3 (witness): with the key of bit 0 already claimed at position 0, a pair
claiming the same key at the same position is skipped: the loop on that
single pair equals the loop on no pairs. -/
theorem rule_overlapping_pair_skipped_witness :
    ((FoldState.mk (some [1]) []).currentFolds = some [1]
      ∧ ([1] : List Stroke).length ≤ ([1] : Outline).length
      ∧ ∃ i, i < ([1] : List Stroke).length
          ∧ strokesOverlap (([1] : List Stroke).getD i 0) (([1] : Outline).getD i 0))
    ∧ ruleLoopWith (ruleCallF 2) [] [] [] 0 [1] (fun _ => none) false
        [([0], [1])] (FoldState.mk (some [1]) [])
      = ruleLoopWith (ruleCallF 2) [] [] [] 0 [1] (fun _ => none) false
          [] (FoldState.mk (some [1]) []) :=
  ⟨⟨rfl, by decide, ⟨0, by decide, by decide⟩⟩,
    rule_overlapping_pair_skipped 2 [] [] [] 0 [1] (fun _ => none) false [0] [1] []
      (FoldState.mk (some [1]) []) [1] rfl (by decide) ⟨0, by decide, by decide⟩⟩

/-! The shorter-outline signal suppresses exactly the rules not built with
`preferring_folds`. -/

theorem ruleLoopWith_no_subrules_sf
    (recur recur' : Rule → Outline → Translator → Bool → FoldState →
      Option String × FoldState)
    (strats : List LookupStrategy) (rid : Nat) (strokes : Outline) (tr : Translator)
    (sf sf' : Bool) :
    ∀ (pairs : List (Outline × Outline)) (st : FoldState),
    ruleLoopWith recur [] [] strats rid strokes tr sf pairs st
      = ruleLoopWith recur' [] [] strats rid strokes tr sf' pairs st
  | [], _ => rfl
  | (defolded, folds) :: rest, st => by
    have hrest := ruleLoopWith_no_subrules_sf recur recur' strats rid strokes tr sf sf' rest
    simp only [ruleLoopWith, tryRulesWith]
    split
    · exact hrest st
    · split
      · rfl
      · exact hrest _

/-- C8: first conjunct — a Rule whose `allow_shorter_outline` flag is false
declines immediately, with the state untouched, whenever the shorter-outline
signal is true, whatever its Prerequisite, strategies and nested rules (so
the Prerequisite is never enumerated, even if its Clauses would match).
Second conjunct — `preferring_folds` builds a Rule with the flag set.  Third
conjunct — for a Rule built via `preferring_folds` (shown without nested
rules, which receive the signal themselves), the shorter-outline signal does
not alter the outcome at all. -/
theorem rule_shorter_outline_suppression :
    (∀ (fuel : Nat) (r : Rule) (strokes : Outline) (tr : Translator) (st : FoldState),
        r.allowShorterOutline = false →
        ruleCallF (fuel + 1) r strokes tr true st = (none, st))
    ∧ (∀ r : Rule, (Rule.preferringFolds r).allowShorterOutline = true)
    ∧ (∀ (fuel : Nat) (prereq : Prerequisite) (strats : List LookupStrategy)
        (allow : Bool) (rid : Nat) (strokes : Outline) (tr : Translator) (st : FoldState),
        ruleCallF (fuel + 1)
            (Rule.preferringFolds (Rule.mk prereq strats [] [] allow rid)) strokes tr true st
          = ruleCallF (fuel + 1)
              (Rule.preferringFolds (Rule.mk prereq strats [] [] allow rid)) strokes tr
              false st) := by
  refine ⟨?_, ?_, ?_⟩
  · intro fuel r strokes tr st hflag
    cases r with
    | mk prereq strats adds alts allow rid =>
      simp only [Rule.allowShorterOutline] at hflag
      subst hflag
      simp only [ruleCallF]
      by_cases h1 : memoHit st.unmatched strokes rid = true
      · rw [if_pos h1]
      · rw [if_neg h1]
        by_cases h2 : strokes.headD 0 = 0
        · rw [if_pos h2]
        · rw [if_neg h2, if_pos (by decide : (true && !false) = true)]
  · intro r
    cases r with
    | mk prereq strats adds alts allow rid => rfl
  · intro fuel prereq strats allow rid strokes tr st
    simp only [Rule.preferringFolds, ruleCallF]
    by_cases h1 : memoHit st.unmatched strokes rid = true
    · rw [if_pos h1, if_pos h1]
    · rw [if_neg h1, if_neg h1]
      by_cases h2 : strokes.headD 0 = 0
      · rw [if_pos h2, if_pos h2]
      · rw [if_neg h2, if_neg h2]
        simp only [Bool.not_true, Bool.and_false, Bool.false_and]
        rw [if_neg (by simp), if_neg (by simp)]
        exact ruleLoopWith_no_subrules_sf (ruleCallF fuel) (ruleCallF fuel) strats rid
          strokes tr true false (prereq.satisfiedFolds strokes) st

/-- C8 (witness): the non-preferring rule declines under the signal; its
`preferring_folds` version carries the flag and behaves identically with and
without the signal. -/
theorem rule_shorter_outline_suppression_witness :
    ((Rule.mk [] [] [] [] false 0).allowShorterOutline = false
      ∧ ruleCallF 1 (Rule.mk [] [] [] [] false 0) [1] (fun _ => none) true
          (FoldState.mk none [])
        = (none, FoldState.mk none []))
    ∧ (Rule.preferringFolds (Rule.mk [] [] [] [] false 0)).allowShorterOutline = true
    ∧ ruleCallF 1 (Rule.preferringFolds (Rule.mk [] [] [] [] false 0)) [1]
        (fun _ => none) true (FoldState.mk none [])
      = ruleCallF 1 (Rule.preferringFolds (Rule.mk [] [] [] [] false 0)) [1]
          (fun _ => none) false (FoldState.mk none []) :=
  ⟨⟨rfl, rule_shorter_outline_suppression.1 0 (Rule.mk [] [] [] [] false 0) [1]
      (fun _ => none) (FoldState.mk none []) rfl⟩,
    rule_shorter_outline_suppression.2.1 (Rule.mk [] [] [] [] false 0),
    rule_shorter_outline_suppression.2.2 0 [] [] false 0 [1] (fun _ => none)
      (FoldState.mk none [])⟩

end PloverCustomFolding
